import Mathlib

/-!
Shallow embedding of the kimi-go agent core in Lean 4, together with proofs
about its behaviour.  Each definition mirrors one Go function or type of the
repository (package `approval`, `llm`, `tools`, `soul`); machine integers are
modelled as `Int`/`Nat`, Go `error` values as `Option String`/`Except String`,
and Go maps as association lists.  A few parts of the `soul` package that are
absent from the source tree (only their tests and callers remain) are modelled
from the specification and marked as such in their doc comments.
-/

namespace KimiGo

/-! ## Approval manager — `internal/approval/approval.go` -/

/-- Approval level for tool execution (`approval.Level`). -/
inductive Level where
  | perRequest
  | session
  | yolo
deriving DecidableEq, Repr

/-- `approval.Manager`: the mutex is irrelevant to the sequential model; the two
Go maps (`sessionApproved`, `dangerousTools`) become a membership list and an
association list (a Go map read of a missing key yields `false`). -/
structure Manager where
  level : Level
  sessionApproved : List String
  dangerousTools : List (String × Bool)
deriving DecidableEq, Repr

/-- `Manager.GetLevel`. -/
def Manager.GetLevel (m : Manager) : Level := m.level

/-- `Manager.IsApproved`: yolo always approves, session consults the
session-approved set, per-request always returns false. -/
def Manager.IsApproved (m : Manager) (toolName : String) : Bool :=
  if m.level = Level.yolo then true
  else if m.level = Level.session then m.sessionApproved.contains toolName
  else false

/-- `Manager.ApproveOnce`: the Go body is empty (a no-op), so the model returns
the manager unchanged. -/
def Manager.ApproveOnce (m : Manager) (_toolName : String) : Manager := m

/-- `Manager.ApproveForSession`: sets `sessionApproved[toolName] = true`. -/
def Manager.ApproveForSession (m : Manager) (toolName : String) : Manager :=
  { m with sessionApproved :=
      if m.sessionApproved.contains toolName then m.sessionApproved
      else toolName :: m.sessionApproved }

/-- `Manager.IsSessionApproved`. -/
def Manager.IsSessionApproved (m : Manager) (toolName : String) : Bool :=
  m.sessionApproved.contains toolName

/-- `Manager.IsDangerous`: map read with default `false`. -/
def Manager.IsDangerous (m : Manager) (toolName : String) : Bool :=
  ((m.dangerousTools.find? (fun p => p.1 == toolName)).map Prod.snd).getD false

/-- `Manager.GetSessionApprovedTools` (Go map iteration order is arbitrary; the
model returns the stored list). -/
def Manager.GetSessionApprovedTools (m : Manager) : List String :=
  m.sessionApproved

/-- `approval.ApprovalRequest`. -/
structure ApprovalRequest where
  toolCallID : String
  toolName : String
  arguments : String
  isDangerous : Bool
deriving DecidableEq, Repr

/-- `Manager.NewApprovalRequest`. -/
def Manager.NewApprovalRequest (m : Manager) (callID toolName args : String) :
    ApprovalRequest :=
  { toolCallID := callID, toolName := toolName, arguments := args,
    isDangerous := m.IsDangerous toolName }

/-! ## Error taxonomy — `internal/llm/errors.go` -/

/-- `llm.APIError` (Go `StatusCode int` becomes `Int`). -/
structure APIError where
  statusCode : Int
  message : String
  rawBody : String
deriving DecidableEq, Repr

/-- `APIError.IsRetryable`: the Go `switch` on the status code, listing
429, 500, 502, 503 and 504. -/
def APIError.IsRetryable (e : APIError) : Bool :=
  e.statusCode == 429 || e.statusCode == 500 || e.statusCode == 502 ||
    e.statusCode == 503 || e.statusCode == 504

/-! ## Retry executor — `internal/llm/retry.go` (`ExecuteWithRetry`)

The operation is an oracle `fn : Nat → Option E` giving the outcome of each
invocation (`none` = success, `some e` = failure with error `e`); the context
is the constant flag `cancelled`; the `onRetry` callback is recorded as the
list of 1-based attempt numbers it receives.  The computed wait durations go
through `ExponentialBackoff` (floating point) and do not influence control
flow, so they are not modelled. -/

/-- The value `ExecuteWithRetry` returns. -/
inductive RetryResult (E : Type) where
  | ok
  | ctxCancelled
  | err (e : E)
  | maxRetriesExceeded (maxRetries : Nat) (lastErr : E)
deriving DecidableEq, Repr

/-- One run of `ExecuteWithRetry`: its result, the number of invocations of
`fn`, and the attempt numbers passed to `onRetry` in order. -/
structure RetryRun (E : Type) where
  result : RetryResult E
  calls : Nat
  retryCallbacks : List Nat
deriving DecidableEq, Repr

/-- The `for attempt := 0; attempt <= config.MaxRetries` loop of
`ExecuteWithRetry`; `rem` counts the iterations still allowed after the
current one (initially `maxRetries`). -/
def executeWithRetryAux {E : Type} (maxRetries : Nat) (fn : Nat → Option E)
    (isRetryable : Option (E → Bool)) (cancelled : Bool) :
    Nat → Nat → RetryRun E
  | attempt, rem =>
    if cancelled then ⟨RetryResult.ctxCancelled, 0, []⟩
    else
      match fn attempt with
      | none => ⟨RetryResult.ok, 1, []⟩
      | some e =>
        if (match isRetryable with
            | some p => !(p e)
            | none => false) then
          ⟨RetryResult.err e, 1, []⟩
        else
          match rem with
          | 0 => ⟨RetryResult.maxRetriesExceeded maxRetries e, 1, []⟩
          | rem' + 1 =>
            if cancelled then ⟨RetryResult.ctxCancelled, 1, [attempt + 1]⟩
            else
              let r := executeWithRetryAux maxRetries fn isRetryable cancelled
                (attempt + 1) rem'
              ⟨r.result, r.calls + 1, (attempt + 1) :: r.retryCallbacks⟩

/-- `llm.ExecuteWithRetry` with `config.MaxRetries = maxRetries` (a `nil`
config takes the default 3; the waits are irrelevant to the result). -/
def ExecuteWithRetry {E : Type} (maxRetries : Nat) (fn : Nat → Option E)
    (isRetryable : Option (E → Bool)) (cancelled : Bool) : RetryRun E :=
  executeWithRetryAux maxRetries fn isRetryable cancelled 0 maxRetries

/-! ## Backoff — `internal/llm/retry.go` (`ExponentialBackoff`)

The Go function computes `float64(initialWait) * math.Pow(base, attempt)` and
converts the product to `time.Duration` (an `int64` of nanoseconds) before
clamping to `[0, maxWait]`.  `backoffRaw` is the exact value of that product
for integer inputs; `int64Max` is the largest value the conversion can
represent — beyond it the Go conversion is implementation-dependent (the Go
code has no saturation branch). -/

/-- Exact value of `float64(initialWait) * math.Pow(base, float64(attempt))`
for an integer base, in nanoseconds. -/
def backoffRaw (initialWait : Int) (base : Int) (attempt : Nat) : Int :=
  initialWait * base ^ attempt

/-- Largest `time.Duration` (`int64`) value. -/
def int64Max : Int := 2 ^ 63 - 1

/-! ## Tool registry — `internal/tools/tool.go`

A tool's `Execute(ctx, args) (any, error)` is modelled as
`execute : Args → Except String Value` over abstract argument and value types
(the cancellation context does not influence any property proved here), and
`json.Marshal` as an abstract `marshal : Value → String`. -/

/-- `tools.Tool` (the interface's data: name, description, parameters and the
execute operation). -/
structure Tool (Args Value : Type) where
  name : String
  description : String
  parameters : String
  execute : Args → Except String Value

/-- `tools.ToolSet`: the name-keyed Go map becomes a list searched by name
(`Register` refuses duplicate names, so the first match is the entry). -/
abbrev ToolSet (Args Value : Type) := List (Tool Args Value)

/-- Go's `fmt` `%q` verb applied to a tool name (exact for names without
escape-worthy characters). -/
def goQuote (s : String) : String := "\"" ++ s ++ "\""

/-- `ToolSet.Get`: the tool, or the error `tool "<name>" not found`. -/
def ToolSet.Get {Args Value : Type} (ts : ToolSet Args Value) (name : String) :
    Except String (Tool Args Value) :=
  match ts.find? (fun t => t.name == name) with
  | some t => Except.ok t
  | none => Except.error ("tool " ++ goQuote name ++ " not found")

/-- `tools.ToolCall`. -/
structure ToolCall (Args : Type) where
  id : String
  name : String
  arguments : Args

/-- `tools.ToolResult`. -/
structure ToolResult where
  callID : String
  success : Bool
  result : String
  error : String
deriving DecidableEq, Repr

/-! ## Output truncation — `internal/tools/tool.go` (`truncateText`)

Strings are modelled as `List Char` (Go indexes bytes; for the properties
proved here the distinction is immaterial).  `splitLines` is the sequence of
maximal newline-free chunks the Go loop iterates over (the chunk after the
last `'\n'` is processed without a trailing newline, and an empty text yields
one empty chunk). -/

/-- The trailer `"\n... (output truncated)"` appended when anything was cut. -/
def truncTrailer : List Char := "\n... (output truncated)".toList

/-- The lines of a text, splitting at `'\n'`; never empty. -/
def splitLines : List Char → List (List Char)
  | [] => [[]]
  | c :: cs =>
    match splitLines cs with
    | [] => [[]]
    | l :: ls => if c = '\n' then [] :: l :: ls else (c :: l) :: ls

/-- Join lines with `'\n'`; left inverse of `splitLines`. -/
def joinNL : List (List Char) → List Char
  | [] => []
  | [l] => l
  | l :: ls => l ++ '\n' :: joinNL ls

/-- The accumulation loop of `truncateText`: processes each line against the
per-line limit `maxLine` and the running total `totalLen` against `maxTotal`;
all but the last line are followed by a newline in the input.  Mirrors the Go
code: a line cut at `maxLine` contributes `maxLine` to the total but its
emitted newline is not counted, an uncut line contributes its length plus one
for the newline (counted after the limit check), and when a line no longer
fits only the first `maxTotal - totalLen` of its characters are emitted and
the loop stops.  Returns the accumulated text and the `truncated` flag. -/
def truncLines (maxTotal maxLine : Nat) : List (List Char) → Nat → List Char × Bool
  | [], _ => ([], false)
  | [line], totalLen =>
    let lineLen := min line.length maxLine
    if maxTotal < totalLen + lineLen then
      (line.take (maxTotal - totalLen), true)
    else if maxLine < line.length then
      (line.take maxLine, true)
    else
      (line, false)
  | line :: next :: rest, totalLen =>
    let lineLen := min line.length maxLine
    if maxTotal < totalLen + lineLen then
      (line.take (maxTotal - totalLen), true)
    else if maxLine < line.length then
      let r := truncLines maxTotal maxLine (next :: rest) (totalLen + lineLen)
      (line.take maxLine ++ '\n' :: r.1, true)
    else
      let r := truncLines maxTotal maxLine (next :: rest) (totalLen + lineLen + 1)
      (line ++ '\n' :: r.1, r.2)

/-- `tools.truncateText` (Go `maxLine <= 0` becomes `maxLine = 0` over `Nat`;
the callers pass the positive constants 50000 and 2000). -/
def truncateText (text : List Char) (maxTotal maxLine : Nat) : List Char :=
  if text.length ≤ maxTotal ∧ maxLine = 0 then text
  else
    let r := truncLines maxTotal maxLine (splitLines text) 0
    if r.2 then r.1 ++ truncTrailer else r.1

/-- `MaxToolOutputTotalChars`. -/
def MaxToolOutputTotalChars : Nat := 50000

/-- `MaxToolOutputLineChars`. -/
def MaxToolOutputLineChars : Nat := 2000

/-! ## Agent core — `internal/soul/soul.go` -/

/-- `Soul.executeToolCall`: returns the `ToolResult` together with the Go
`error` return value (modelled as `Option String`); every branch of the Go
function returns a result with a `nil` error (the `json.Marshal` error is
discarded). -/
def executeToolCall {Args Value : Type} (marshal : Value → String)
    (ts : ToolSet Args Value) (call : ToolCall Args) :
    ToolResult × Option String :=
  match ts.Get call.name with
  | Except.error msg => (⟨call.id, false, "", msg⟩, none)
  | Except.ok tool =>
    match tool.execute call.arguments with
    | Except.error msg => (⟨call.id, false, "", msg⟩, none)
    | Except.ok v => (⟨call.id, true, marshal v, ""⟩, none)

/-- A tool call as it appears inside an LLM assistant message
(`llm.ToolCall` with `function.name` / `function.arguments`). -/
structure ToolCallInfo (Args : Type) where
  id : String
  name : String
  arguments : Args

/-- The `message` of an LLM response choice (`llm.Message`): content plus the
requested tool calls. -/
structure AssistantMsg (Args : Type) where
  content : String
  toolCalls : List (ToolCallInfo Args)

/-- `llm.ChatResponse` restricted to what the loop consumes: the choices. -/
structure ChatResponse (Args : Type) where
  choices : List (AssistantMsg Args)

/-- How a turn of `Soul.processWithLLM` ends. -/
inductive TurnOutcome where
  | ok (finalText : String)
  | llmError (msg : String)
  | emptyChoices
  | toolExecError (msg : String)
  | maxStepsExceeded (msg : String)
deriving DecidableEq, Repr

/-- The error message `agent loop exceeded maximum steps (%d)`. -/
def maxStepsMessage (n : Nat) : String :=
  "agent loop exceeded maximum steps (" ++ toString n ++ ")"

/-- The `for step := 0; step < s.runtime.MaxSteps` loop of
`Soul.processWithLLM`.  The LLM transport is an oracle
`chat : Nat → Except String (ChatResponse Args)` giving the outcome of the
step's `ChatWithTools` call; `rem` counts the remaining iterations.  Returns
the outcome and the number of chat calls performed.  Tool calls of a response
are executed in order through `executeToolCall`; a non-`nil` tool-execution
error would abort the turn (the Go code checks `execErr != nil`), and the
loop continues to the next step otherwise. -/
def runSteps {Args Value : Type} (marshal : Value → String)
    (ts : ToolSet Args Value) (maxSteps : Nat)
    (chat : Nat → Except String (ChatResponse Args)) :
    Nat → Nat → TurnOutcome × Nat
  | _, 0 => (TurnOutcome.maxStepsExceeded (maxStepsMessage maxSteps), 0)
  | step, rem + 1 =>
    match chat step with
    | Except.error e => (TurnOutcome.llmError ("LLM request failed: " ++ e), 1)
    | Except.ok resp =>
      match resp.choices with
      | [] => (TurnOutcome.emptyChoices, 1)
      | m :: _ =>
        if m.toolCalls.length > 0 then
          let results := m.toolCalls.map fun tc =>
            executeToolCall marshal ts ⟨tc.id, tc.name, tc.arguments⟩
          match results.find? (fun r => r.2.isSome) with
          | some r =>
            (TurnOutcome.toolExecError
              ("tool execution error: " ++ (r.2.getD "")), 1)
          | none =>
            let next := runSteps marshal ts maxSteps chat (step + 1) rem
            (next.1, next.2 + 1)
        else
          (TurnOutcome.ok
            (if m.content = "" then "(empty response)" else m.content), 1)

/-- `Soul.processWithLLM` from the point where the agent loop starts (an LLM
client is present and the user message has been appended): runs at most
`maxSteps` steps. -/
def processWithLLM {Args Value : Type} (marshal : Value → String)
    (ts : ToolSet Args Value) (maxSteps : Nat)
    (chat : Nat → Except String (ChatResponse Args)) : TurnOutcome × Nat :=
  runSteps marshal ts maxSteps chat 0 maxSteps

/-! ## Shell tool — `internal/tools/shell.go` (`ShellTool.Execute`)

`json.Unmarshal` is modelled as `parsed : Except String ShellToolParams` (the
argument bytes already decoded, or the unmarshal error message), and the
process run `cmd.CombinedOutput()` as a `ShellRun` value recording the
combined output and which error branch of the Go code fires, if any. -/

/-- `tools.ShellToolParams`. -/
structure ShellToolParams where
  command : String
  timeout : Int
deriving DecidableEq, Repr

/-- Which error `cmd.CombinedOutput()` produced: an `*exec.ExitError`, a
context deadline (`execCtx.Err() == context.DeadlineExceeded`), or another
error with its message. -/
inductive ShellRunErr where
  | exitError (exitCode : Int) (stderr : String)
  | deadlineExceeded
  | other (msg : String)
deriving DecidableEq, Repr

/-- Outcome of running the command. -/
structure ShellRun where
  output : String
  err : Option ShellRunErr
deriving DecidableEq, Repr

/-- `tools.ShellToolResult`. -/
structure ShellToolResult where
  success : Bool
  stdout : String
  stderr : String
  exitCode : Int
  error : String
deriving DecidableEq, Repr

/-- Go `unicode.IsSpace` on the characters that matter here (ASCII whitespace
plus NEL and NBSP). -/
def goIsSpace (c : Char) : Bool :=
  c = ' ' || c = '\t' || c = '\n' || c = Char.ofNat 11 || c = Char.ofNat 12 ||
    c = '\r' || c = Char.ofNat 0x85 || c = Char.ofNat 0xA0

/-- `strings.TrimSpace(s) == ""`: every character is whitespace. -/
def trimSpaceIsEmpty (s : String) : Bool := s.toList.all goIsSpace

/-- `ShellTool.Execute`.  A `.error` return is the Go non-nil `error` path;
`.ok` carries the `ShellToolResult` (the Go function then returns it with a
`nil` error). -/
def shellExecute (parsed : Except String ShellToolParams) (run : ShellRun) :
    Except String ShellToolResult :=
  match parsed with
  | Except.error jsonErr => Except.error ("invalid parameters: " ++ jsonErr)
  | Except.ok params =>
    if trimSpaceIsEmpty params.command then
      Except.error "command cannot be empty"
    else
      Except.ok
        (match run.err with
        | none =>
          { success := true, stdout := run.output, stderr := "",
            exitCode := 0, error := "" }
        | some (ShellRunErr.exitError code stderr) =>
          { success := false, stdout := run.output, stderr := stderr,
            exitCode := code, error := "" }
        | some ShellRunErr.deadlineExceeded =>
          { success := false, stdout := run.output, stderr := "",
            exitCode := -1, error := "command timed out" }
        | some (ShellRunErr.other msg) =>
          { success := false, stdout := run.output, stderr := "",
            exitCode := 0, error := msg })

/-! ## Compaction — spec-modelled

The `soul` package's token-budget methods (`Soul.shouldCompress`,
`Soul.maybeCompressHistory`, `Soul.updateTokenCount`, the `tokenCount`,
`maxContextSize` and `reservedContext` fields) are exercised by the tests in
the source tree but their implementation file is not in it, so they are
modelled from the specification (§4.9). -/

/-- `llm.Message` as stored in the LLM history. -/
structure LLMMessage where
  role : String
  content : String
  toolCallID : String := ""
deriving DecidableEq, Repr

/-- Modelled from the spec: `Soul.shouldCompress` (missing from the source
tree; only its tests remain) — `token_count + reserved ≥ max_context`. -/
def shouldCompress (tokenCount reservedContext maxContextSize : Nat) : Bool :=
  maxContextSize ≤ tokenCount + reservedContext

/-- Modelled from the spec: `Soul.maybeCompressHistory` (missing from the
source tree; only its tests remain).  If compaction is not triggered, or the
history holds at most `N_KEEP + 2 = 4` messages, the history is returned
unchanged; otherwise all but the last `N_KEEP = 2` messages are summarized by
`summarize` (the summarization `llm_client.chat` call; its error propagates)
and replaced by one system message carrying the summary. -/
def maybeCompress (tokenCount reservedContext maxContextSize : Nat)
    (summarize : List LLMMessage → Except String String)
    (history : List LLMMessage) : Except String (List LLMMessage) :=
  if shouldCompress tokenCount reservedContext maxContextSize = false then
    Except.ok history
  else if history.length ≤ 4 then
    Except.ok history
  else
    match summarize (history.take (history.length - 2)) with
    | Except.error e => Except.error e
    | Except.ok summary =>
      Except.ok
        ({ role := "system",
           content := "Conversation so far (summary): " ++ summary } ::
          history.drop (history.length - 2))

/-! ## Approval gate — spec-modelled

The approval-gated turn loop (the `Soul` with an `OnApprovalNeeded` handler,
which `cmd/kimi/main.go` assigns) is missing from the source tree: the
`soul.go` present there lacks that field and the gate, and cannot be the file
its own tests and callers compile against.  The gate for one tool call is
therefore modelled from the specification (§4.8.5 step c); `Manager.IsApproved`
and `executeToolCall` above are taken from the source. -/

/-- The reply to an `OnApprovalNeeded` event. -/
inductive ApprovalDecision where
  | approveOnce
  | approveSession
  | deny
deriving DecidableEq, Repr

/-- What the gate did for one tool call. -/
structure GateResult where
  approvalRequested : Bool
  result : ToolResult
  toolExecuted : Bool
deriving DecidableEq, Repr

/-- Modelled from the spec: the approval gate of the turn loop (missing from
the source tree; only `approval.Manager` and the `OnApprovalNeeded` wiring in
`cmd/kimi/main.go` remain).  If `approval.is_approved(name)` is false, emit
`OnApprovalNeeded` and wait for a decision; denial produces the synthetic
result `success=false, error="denied by user"` and the tool is not executed;
otherwise the tool runs through `executeToolCall`. -/
def approvalGateStep {Args Value : Type} (marshal : Value → String)
    (mgr : Manager) (ts : ToolSet Args Value) (decision : ApprovalDecision)
    (call : ToolCall Args) : GateResult :=
  if mgr.IsApproved call.name then
    { approvalRequested := false,
      result := (executeToolCall marshal ts call).1, toolExecuted := true }
  else
    match decision with
    | ApprovalDecision.deny =>
      { approvalRequested := true,
        result := ⟨call.id, false, "", "denied by user"⟩,
        toolExecuted := false }
    | _ =>
      { approvalRequested := true,
        result := (executeToolCall marshal ts call).1, toolExecuted := true }

/-! ## Theorems -/

/-- C9: `ApproveOnce` leaves the approval manager's observable state entirely
unchanged — `IsApproved`, `IsSessionApproved`, `IsDangerous`, `GetLevel` and
`GetSessionApprovedTools` return afterwards exactly what they returned
before. -/
theorem approveOnce_preserves_observables (m : Manager) (name : String) :
    (∀ n, (m.ApproveOnce name).IsApproved n = m.IsApproved n) ∧
    (∀ n, (m.ApproveOnce name).IsSessionApproved n = m.IsSessionApproved n) ∧
    (∀ n, (m.ApproveOnce name).IsDangerous n = m.IsDangerous n) ∧
    (m.ApproveOnce name).GetLevel = m.GetLevel ∧
    (m.ApproveOnce name).GetSessionApprovedTools = m.GetSessionApprovedTools :=
  ⟨fun _ => rfl, fun _ => rfl, fun _ => rfl, rfl, rfl⟩

/-- C4: `APIError.IsRetryable` returns true iff the status code is one of
429, 500, 502, 503, 504; every other status code (other 4xx, 2xx, 0, …)
yields false. -/
theorem apiError_isRetryable_iff (e : APIError) :
    e.IsRetryable = true ↔
      (e.statusCode = 429 ∨ e.statusCode = 500 ∨ e.statusCode = 502 ∨
        e.statusCode = 503 ∨ e.statusCode = 504) := by
  simp only [APIError.IsRetryable, Bool.or_eq_true, beq_iff_eq]
  tauto

/-- C1: for a tool call whose name is not approved (`IsApproved` returns
false), the gate emits `OnApprovalNeeded`, and on denial it produces the
synthetic `ToolResult` with `success = false` and `error = "denied by user"`
while the tool is never executed. -/
theorem approvalGate_unapproved {Args Value : Type} (marshal : Value → String)
    (mgr : Manager) (ts : ToolSet Args Value) (decision : ApprovalDecision)
    (call : ToolCall Args) (h : mgr.IsApproved call.name = false) :
    (approvalGateStep marshal mgr ts decision call).approvalRequested = true ∧
    (decision = ApprovalDecision.deny →
      approvalGateStep marshal mgr ts decision call =
        ⟨true, ⟨call.id, false, "", "denied by user"⟩, false⟩) := by
  cases decision <;> simp [approvalGateStep, h]

/-- Witness for `approvalGate_unapproved`: a per-request manager denies the
`shell` tool. -/
theorem approvalGate_unapproved_witness :
    (approvalGateStep (fun _ : Unit => "") ⟨Level.perRequest, [], []⟩
        ([] : ToolSet Unit Unit) ApprovalDecision.deny
        ⟨"c1", "shell", ()⟩).approvalRequested = true ∧
    approvalGateStep (fun _ : Unit => "") ⟨Level.perRequest, [], []⟩
        ([] : ToolSet Unit Unit) ApprovalDecision.deny ⟨"c1", "shell", ()⟩ =
      ⟨true, ⟨"c1", false, "", "denied by user"⟩, false⟩ := by
  have h := approvalGate_unapproved (fun _ : Unit => "")
    ⟨Level.perRequest, [], []⟩ ([] : ToolSet Unit Unit) ApprovalDecision.deny
    ⟨"c1", "shell", ()⟩ rfl
  exact ⟨h.1, h.2 rfl⟩

/-- The retry loop on an operation failing with a retryable error at every
invocation: starting at `attempt` with `rem` further iterations allowed, it
performs `rem + 1` invocations, notifies `onRetry` with `attempt+1, …,
attempt+rem`, and wraps the error of the final invocation. -/
theorem executeWithRetryAux_allFail {E : Type} (N : Nat) (fn : Nat → Option E)
    (errf : Nat → E) (p : E → Bool) (hfn : ∀ k, fn k = some (errf k))
    (hp : ∀ k, p (errf k) = true) :
    ∀ (rem attempt : Nat),
      executeWithRetryAux N fn (some p) false attempt rem =
        ⟨RetryResult.maxRetriesExceeded N (errf (attempt + rem)), rem + 1,
          List.range' (attempt + 1) rem⟩ := by
  intro rem
  induction rem with
  | zero => intro attempt; simp [executeWithRetryAux, hfn, hp]
  | succ r ih =>
    intro attempt
    simp only [executeWithRetryAux, hfn, hp, if_false, Bool.not_true,
      Bool.false_eq_true, ih (attempt + 1), List.range']
    have harith : attempt + 1 + r = attempt + (r + 1) := by omega
    rw [harith]

/-- C3: with `max_retries = N` and an operation failing with a retryable
error on every invocation, `ExecuteWithRetry` under an un-cancelled context
invokes the operation exactly `N + 1` times, invokes `onRetry` exactly `N`
times with the 1-based attempt numbers `1, …, N`, and returns the
max-retries-exceeded error reporting `N` and wrapping the last operation
error. -/
theorem executeWithRetry_exhausted {E : Type} (N : Nat) (fn : Nat → Option E)
    (errf : Nat → E) (p : E → Bool) (hfn : ∀ k, fn k = some (errf k))
    (hp : ∀ k, p (errf k) = true) :
    ExecuteWithRetry N fn (some p) false =
      ⟨RetryResult.maxRetriesExceeded N (errf N), N + 1, List.range' 1 N⟩ := by
  have h := executeWithRetryAux_allFail N fn errf p hfn hp N 0
  simpa [ExecuteWithRetry] using h

/-- Witness for `executeWithRetry_exhausted`: `N = 2`, every invocation fails
with `"boom"`; 3 invocations, callbacks at attempts 1 and 2. -/
theorem executeWithRetry_exhausted_witness :
    ExecuteWithRetry 2 (fun _ => some "boom") (some fun _ => true) false =
      ⟨RetryResult.maxRetriesExceeded 2 "boom", 3, [1, 2]⟩ :=
  executeWithRetry_exhausted 2 (fun _ => some "boom") (fun _ => "boom")
    (fun _ => true) (fun _ => rfl) (fun _ => rfl)

/-- C5: at `attempt = 100` with the default `initial = 300ms` and
`base = 2.0`, the exact backoff value `initial · base^attempt` exceeds the
largest `int64` (`time.Duration`), i.e. the Go float-to-duration conversion
in `ExponentialBackoff` is out of range there — the function has no
saturation branch, so the overflow case is implementation-dependent (on
common platforms the negative conversion result is clamped to 0) rather than
the spec-required `max`. -/
theorem backoffRaw_overflows_int64 :
    int64Max < backoffRaw 300000000 2 100 := by
  norm_num [backoffRaw, int64Max]

/-- C7: when compaction is triggered and the history has length `L ≥ 5`, the
history is replaced by exactly three messages: a system message whose content
is `"Conversation so far (summary): "` followed by the summarizer's reply,
then the previous last two entries unchanged and in order. -/
theorem maybeCompress_triggered (tc rc mc : Nat)
    (summarize : List LLMMessage → Except String String)
    (history : List LLMMessage) (s : String)
    (htrig : shouldCompress tc rc mc = true)
    (hlen : 5 ≤ history.length)
    (hsum : summarize (history.take (history.length - 2)) = Except.ok s) :
    maybeCompress tc rc mc summarize history =
      Except.ok
        ({ role := "system",
           content := "Conversation so far (summary): " ++ s,
           toolCallID := "" } :: history.drop (history.length - 2)) ∧
    ({ role := "system", content := "Conversation so far (summary): " ++ s,
       toolCallID := "" } :: history.drop (history.length - 2)).length = 3 := by
  have h4 : ¬ (history.length ≤ 4) := by omega
  constructor
  · simp [maybeCompress, htrig, h4, hsum]
  · simp [List.length_drop]
    omega

/-- Witness for `maybeCompress_triggered`: the six-message history from the
repository's own compaction test, with `token_count = 95`, `reserved = 10`,
`max_context = 100` and a summarizer replying `"S"`. -/
theorem maybeCompress_triggered_witness :
    maybeCompress 95 10 100 (fun _ => Except.ok "S")
        [⟨"user", "m1", ""⟩, ⟨"assistant", "r1", ""⟩, ⟨"user", "m2", ""⟩,
          ⟨"assistant", "r2", ""⟩, ⟨"user", "m3", ""⟩, ⟨"assistant", "r3", ""⟩] =
      Except.ok
        [⟨"system", "Conversation so far (summary): " ++ "S", ""⟩,
          ⟨"user", "m3", ""⟩, ⟨"assistant", "r3", ""⟩] := by
  have h := maybeCompress_triggered 95 10 100 (fun _ => Except.ok "S")
    [⟨"user", "m1", ""⟩, ⟨"assistant", "r1", ""⟩, ⟨"user", "m2", ""⟩,
      ⟨"assistant", "r2", ""⟩, ⟨"user", "m3", ""⟩, ⟨"assistant", "r3", ""⟩]
    "S" rfl (by decide) rfl
  exact h.1

/-- `executeToolCall` returns a `nil` Go error on every path. -/
theorem executeToolCall_goError_eq_none {Args Value : Type}
    (marshal : Value → String) (ts : ToolSet Args Value)
    (call : ToolCall Args) : (executeToolCall marshal ts call).2 = none := by
  cases hget : ts.Get call.name with
  | error msg => simp [executeToolCall, hget]
  | ok tool =>
    cases hex : tool.execute call.arguments with
    | error e => simp [executeToolCall, hget, hex]
    | ok v => simp [executeToolCall, hget, hex]

/-- C2: `executeToolCall` always returns a `ToolResult` together with a `nil`
Go error; when the tool is not registered the result is
`{call_id, success:false}` with the error message naming the missing tool,
and when the tool's `Execute` errors the result carries that error's
message.  Hence a tool failure never terminates the turn loop. -/
theorem executeToolCall_spec {Args Value : Type} (marshal : Value → String)
    (ts : ToolSet Args Value) (call : ToolCall Args) :
    (executeToolCall marshal ts call).2 = none ∧
    (ts.find? (fun t => t.name == call.name) = none →
      (executeToolCall marshal ts call).1 =
        ⟨call.id, false, "", "tool " ++ goQuote call.name ++ " not found"⟩) ∧
    (∀ tool e, ts.find? (fun t => t.name == call.name) = some tool →
      tool.execute call.arguments = Except.error e →
      (executeToolCall marshal ts call).1 = ⟨call.id, false, "", e⟩) := by
  refine ⟨executeToolCall_goError_eq_none marshal ts call, ?_, ?_⟩
  · intro hnone
    simp [executeToolCall, ToolSet.Get, hnone]
  · intro tool e hfind hexec
    simp [executeToolCall, ToolSet.Get, hfind, hexec]

/-- Witness for `executeToolCall_spec`: a call to an unregistered tool and a
call whose `Execute` fails. -/
theorem executeToolCall_spec_witness :
    (executeToolCall (fun _ : Unit => "") ([] : ToolSet Unit Unit)
        ⟨"c1", "missing", ()⟩).2 = none ∧
    (executeToolCall (fun _ : Unit => "") ([] : ToolSet Unit Unit)
        ⟨"c1", "missing", ()⟩).1 =
      ⟨"c1", false, "", "tool \"missing\" not found"⟩ ∧
    (executeToolCall (fun _ : Unit => "")
        ([⟨"boom", "", "", fun _ => Except.error "kaput"⟩] : ToolSet Unit Unit)
        ⟨"c2", "boom", ()⟩).1 = ⟨"c2", false, "", "kaput"⟩ := by
  refine ⟨(executeToolCall_spec (fun _ : Unit => "") ([] : ToolSet Unit Unit)
      ⟨"c1", "missing", ()⟩).1, ?_, ?_⟩
  · exact (executeToolCall_spec (fun _ : Unit => "") ([] : ToolSet Unit Unit)
      ⟨"c1", "missing", ()⟩).2.1 rfl
  · exact (executeToolCall_spec (fun _ : Unit => "")
      ([⟨"boom", "", "", fun _ => Except.error "kaput"⟩] : ToolSet Unit Unit)
      ⟨"c2", "boom", ()⟩).2.2 _ "kaput" rfl rfl

/-- C10: `ShellTool.Execute` returns a non-nil Go error only when the
arguments fail to decode or the command is empty/whitespace; every command
that actually runs yields a `nil` Go error and a `ShellToolResult` whose
`success` mirrors the absence of a run error, with the process's exit code on
an `ExitError` and `error = "command timed out"`, `exitCode = -1` when the
deadline fired. -/
theorem shellExecute_spec (parsed : Except String ShellToolParams)
    (run : ShellRun) :
    (∀ e, shellExecute parsed run = Except.error e →
      (∃ jsonErr, parsed = Except.error jsonErr) ∨
      (∃ p, parsed = Except.ok p ∧ trimSpaceIsEmpty p.command = true)) ∧
    (∀ p, parsed = Except.ok p → trimSpaceIsEmpty p.command = false →
      ∃ r, shellExecute parsed run = Except.ok r ∧
        r.success = run.err.isNone ∧
        (∀ code stderr, run.err = some (ShellRunErr.exitError code stderr) →
          r.success = false ∧ r.exitCode = code) ∧
        (run.err = some ShellRunErr.deadlineExceeded →
          r.success = false ∧ r.error = "command timed out" ∧
            r.exitCode = -1)) := by
  constructor
  · intro e herr
    cases parsed with
    | error jsonErr => exact Or.inl ⟨jsonErr, rfl⟩
    | ok params =>
      by_cases hblank : trimSpaceIsEmpty params.command
      · exact Or.inr ⟨params, rfl, hblank⟩
      · exfalso
        simp [shellExecute, hblank] at herr
  · intro p hp hblank
    subst hp
    obtain ⟨output, err⟩ := run
    cases err with
    | none =>
      refine ⟨⟨true, output, "", 0, ""⟩, by simp [shellExecute, hblank],
        rfl, ?_, ?_⟩
      · intro code stderr hcase; exact absurd hcase (by simp)
      · intro hcase; exact absurd hcase (by simp)
    | some e =>
      cases e with
      | exitError code stderr =>
        refine ⟨⟨false, output, stderr, code, ""⟩,
          by simp [shellExecute, hblank], rfl, ?_, ?_⟩
        · intro c st hcase
          simp only [Option.some.injEq, ShellRunErr.exitError.injEq] at hcase
          exact ⟨rfl, hcase.1⟩
        · intro hcase; exact absurd hcase (by simp)
      | deadlineExceeded =>
        refine ⟨⟨false, output, "", -1, "command timed out"⟩,
          by simp [shellExecute, hblank], rfl, ?_, fun _ => ⟨rfl, rfl, rfl⟩⟩
        intro c st hcase
        exact absurd hcase (by simp)
      | other msg =>
        refine ⟨⟨false, output, "", 0, msg⟩,
          by simp [shellExecute, hblank], rfl, ?_, ?_⟩
        · intro c st hcase; exact absurd hcase (by simp)
        · intro hcase; exact absurd hcase (by simp)

/-- Witness for `shellExecute_spec`: a timed-out `ls` run. -/
theorem shellExecute_spec_witness :
    ∃ r, shellExecute (Except.ok ⟨"ls", 0⟩)
        ⟨"partial", some ShellRunErr.deadlineExceeded⟩ = Except.ok r ∧
      r.success = (some ShellRunErr.deadlineExceeded).isNone ∧
      (∀ code stderr,
        some ShellRunErr.deadlineExceeded =
            some (ShellRunErr.exitError code stderr) →
        r.success = false ∧ r.exitCode = code) ∧
      (some ShellRunErr.deadlineExceeded =
          some ShellRunErr.deadlineExceeded →
        r.success = false ∧ r.error = "command timed out" ∧
          r.exitCode = -1) :=
  (shellExecute_spec (Except.ok ⟨"ls", 0⟩)
    ⟨"partial", some ShellRunErr.deadlineExceeded⟩).2 ⟨"ls", 0⟩ rfl (by decide)

/-- Unfolding equation for a step of the loop. -/
theorem runSteps_succ_eq {Args Value : Type} (marshal : Value → String)
    (ts : ToolSet Args Value) (maxSteps : Nat)
    (chat : Nat → Except String (ChatResponse Args)) (step r : Nat) :
    runSteps marshal ts maxSteps chat step (r + 1) =
      match chat step with
      | Except.error e =>
        (TurnOutcome.llmError ("LLM request failed: " ++ e), 1)
      | Except.ok resp =>
        match resp.choices with
        | [] => (TurnOutcome.emptyChoices, 1)
        | m :: _ =>
          if m.toolCalls.length > 0 then
            match (m.toolCalls.map fun tc =>
                executeToolCall marshal ts
                  ⟨tc.id, tc.name, tc.arguments⟩).find?
                (fun rr => rr.2.isSome) with
            | some rr =>
              (TurnOutcome.toolExecError
                ("tool execution error: " ++ (rr.2.getD "")), 1)
            | none =>
              ((runSteps marshal ts maxSteps chat (step + 1) r).1,
                (runSteps marshal ts maxSteps chat (step + 1) r).2 + 1)
          else
            (TurnOutcome.ok
              (if m.content = "" then "(empty response)" else m.content),
              1) := rfl

/-- In the step loop, no map-then-search for a failed tool execution ever
finds one: `executeToolCall` always returns a `nil` Go error. -/
theorem runSteps_toolErrors_none {Args Value : Type}
    (marshal : Value → String) (ts : ToolSet Args Value)
    (tcs : List (ToolCallInfo Args)) :
    (tcs.map fun tc =>
        executeToolCall marshal ts ⟨tc.id, tc.name, tc.arguments⟩).find?
      (fun rr => rr.2.isSome) = none := by
  rw [List.find?_eq_none]
  intro x hx
  obtain ⟨tc, _, hxeq⟩ := List.mem_map.mp hx
  rw [← hxeq, executeToolCall_goError_eq_none]
  simp

/-- The chat-call counter of the step loop never exceeds the remaining
iteration budget. -/
theorem runSteps_calls_le {Args Value : Type} (marshal : Value → String)
    (ts : ToolSet Args Value) (maxSteps : Nat)
    (chat : Nat → Except String (ChatResponse Args)) :
    ∀ (rem step : Nat), (runSteps marshal ts maxSteps chat step rem).2 ≤ rem := by
  intro rem
  induction rem with
  | zero => intro step; simp [runSteps]
  | succ r ih =>
    intro step
    rw [runSteps_succ_eq]
    cases hchat : chat step with
    | error e => simp
    | ok resp =>
      obtain ⟨choices⟩ := resp
      cases choices with
      | nil => simp
      | cons m rest =>
        by_cases htc : m.toolCalls.length > 0
        · simp only [htc, if_true]
          cases hfind : (m.toolCalls.map fun tc =>
              executeToolCall marshal ts ⟨tc.id, tc.name, tc.arguments⟩).find?
              (fun rr => rr.2.isSome) with
          | some r0 => simp
          | none =>
            simp only
            have := ih (step + 1)
            omega
        · simp [htc]

/-- If the chat oracle answers every step with a first choice carrying tool
calls, the step loop consumes its whole budget: `rem` chat calls and the
max-steps error. -/
theorem runSteps_allToolCalls {Args Value : Type} (marshal : Value → String)
    (ts : ToolSet Args Value) (maxSteps : Nat)
    (chat : Nat → Except String (ChatResponse Args))
    (h : ∀ k, ∃ m rest, chat k = Except.ok ⟨m :: rest⟩ ∧
      m.toolCalls.length > 0) :
    ∀ (rem step : Nat), runSteps marshal ts maxSteps chat step rem =
      (TurnOutcome.maxStepsExceeded (maxStepsMessage maxSteps), rem) := by
  intro rem
  induction rem with
  | zero => intro step; rfl
  | succ r ih =>
    intro step
    obtain ⟨m, rest, hchat, htc⟩ := h step
    rw [runSteps_succ_eq, hchat]
    simp only [htc, if_true, runSteps_toolErrors_none marshal ts m.toolCalls,
      ih (step + 1)]

/-- C8: a turn performs at most `max_steps` chat calls, and when every LLM
response contains tool calls the loop makes exactly `max_steps` chat calls
and returns the max-steps-exceeded error whose message names the configured
bound. -/
theorem processWithLLM_maxSteps {Args Value : Type} (marshal : Value → String)
    (ts : ToolSet Args Value) (maxSteps : Nat)
    (chat : Nat → Except String (ChatResponse Args))
    (h : ∀ k, ∃ m rest, chat k = Except.ok ⟨m :: rest⟩ ∧
      m.toolCalls.length > 0) :
    (∀ chat2 : Nat → Except String (ChatResponse Args),
      (processWithLLM marshal ts maxSteps chat2).2 ≤ maxSteps) ∧
    processWithLLM marshal ts maxSteps chat =
      (TurnOutcome.maxStepsExceeded (maxStepsMessage maxSteps), maxSteps) := by
  constructor
  · intro chat2
    exact runSteps_calls_le marshal ts maxSteps chat2 maxSteps 0
  · exact runSteps_allToolCalls marshal ts maxSteps chat h maxSteps 0

/-- Witness for `processWithLLM_maxSteps`: with `max_steps = 3` and an LLM
that always requests a tool call, the loop makes 3 chat calls and errors with
`agent loop exceeded maximum steps (3)`. -/
theorem processWithLLM_maxSteps_witness :
    (processWithLLM (fun _ : Unit => "") ([] : ToolSet Unit Unit) 3
        (fun _ => Except.ok ⟨[⟨"", [⟨"c1", "shell", ()⟩]⟩]⟩)).2 ≤ 3 ∧
    processWithLLM (fun _ : Unit => "") ([] : ToolSet Unit Unit) 3
        (fun _ => Except.ok ⟨[⟨"", [⟨"c1", "shell", ()⟩]⟩]⟩) =
      (TurnOutcome.maxStepsExceeded "agent loop exceeded maximum steps (3)",
        3) := by
  have h := processWithLLM_maxSteps (fun _ : Unit => "")
    ([] : ToolSet Unit Unit) 3
    (fun _ => Except.ok ⟨[⟨"", [⟨"c1", "shell", ()⟩]⟩]⟩)
    (fun k => ⟨⟨"", [⟨"c1", "shell", ()⟩]⟩, [], rfl, by decide⟩)
  exact ⟨h.1 _, h.2⟩

/-- Unfolding equation for `splitLines` on a cons. -/
theorem splitLines_cons (c : Char) (cs : List Char) :
    splitLines (c :: cs) =
      match splitLines cs with
      | [] => [[]]
      | l :: ls => if c = '\n' then [] :: l :: ls else (c :: l) :: ls := rfl

/-- `splitLines` never returns the empty list. -/
theorem splitLines_ne_nil (t : List Char) : splitLines t ≠ [] := by
  induction t with
  | nil => simp [splitLines]
  | cons c cs ih =>
    unfold splitLines
    cases h : splitLines cs with
    | nil => simp
    | cons l ls => by_cases hc : c = '\n' <;> simp [hc]

/-- Joining the lines of a text gives the text back. -/
theorem joinNL_splitLines (t : List Char) : joinNL (splitLines t) = t := by
  induction t with
  | nil => rfl
  | cons c cs ih =>
    unfold splitLines
    cases h : splitLines cs with
    | nil => exact absurd h (splitLines_ne_nil cs)
    | cons l ls =>
      rw [h] at ih
      by_cases hc : c = '\n'
      · subst hc
        simpa [joinNL] using ih
      · simp only [hc, if_false]
        cases ls with
        | nil => simpa [joinNL] using congrArg (c :: ·) ih
        | cons l2 ls2 => simpa [joinNL] using congrArg (c :: ·) ih

/-- No line produced by `splitLines` contains a newline. -/
theorem not_newline_mem_splitLines (t : List Char) :
    ∀ l ∈ splitLines t, '\n' ∉ l := by
  induction t with
  | nil => simp [splitLines]
  | cons c cs ih =>
    unfold splitLines
    cases h : splitLines cs with
    | nil => simp
    | cons l ls =>
      rw [h] at ih
      by_cases hc : c = '\n'
      · subst hc
        simp only [if_pos rfl]
        intro x hx
        rcases List.mem_cons.mp hx with hx | hx
        · subst hx; simp
        · exact ih x hx
      · simp only [hc, if_false]
        intro x hx
        rcases List.mem_cons.mp hx with hx | hx
        · subst hx
          intro hmem
          rcases List.mem_cons.mp hmem with hmem | hmem
          · exact hc hmem.symm
          · exact ih l (by simp) hmem
        · exact ih x (List.mem_cons_of_mem l hx)

/-- Splitting a newline-free chunk followed by a newline peels off that
chunk. -/
theorem splitLines_append_newline (s u : List Char) (hs : '\n' ∉ s) :
    splitLines (s ++ '\n' :: u) = s :: splitLines u := by
  induction s with
  | nil =>
    simp only [List.nil_append]
    rw [splitLines_cons]
    cases h : splitLines u with
    | nil => exact absurd h (splitLines_ne_nil u)
    | cons l ls => simp
  | cons c cs ih =>
    have hc : c ≠ '\n' := fun hh => hs (by simp [hh])
    have hcs : '\n' ∉ cs := fun hh => hs (by simp [hh])
    simp only [List.cons_append]
    rw [splitLines_cons, ih hcs]
    simp [hc]

/-- Splitting a newline-free text yields that text as the only line. -/
theorem splitLines_of_not_newline (s : List Char) (hs : '\n' ∉ s) :
    splitLines s = [s] := by
  induction s with
  | nil => rfl
  | cons c cs ih =>
    have hc : c ≠ '\n' := fun hh => hs (by simp [hh])
    have hcs : '\n' ∉ cs := fun hh => hs (by simp [hh])
    rw [splitLines_cons, ih hcs]
    simp [hc]

/-- Unfolding equation: the loop on a final line (no newline follows). -/
theorem truncLines_single (mT mL : Nat) (line : List Char) (totalLen : Nat) :
    truncLines mT mL [line] totalLen =
      if mT < totalLen + min line.length mL then
        (line.take (mT - totalLen), true)
      else if mL < line.length then
        (line.take mL, true)
      else
        (line, false) := rfl

/-- Unfolding equation: the loop on a line followed by more lines (a newline
follows it in the input). -/
theorem truncLines_cons₂ (mT mL : Nat) (line next : List Char)
    (rest : List (List Char)) (totalLen : Nat) :
    truncLines mT mL (line :: next :: rest) totalLen =
      if mT < totalLen + min line.length mL then
        (line.take (mT - totalLen), true)
      else if mL < line.length then
        ((line.take mL ++ '\n' ::
            (truncLines mT mL (next :: rest)
              (totalLen + min line.length mL)).1), true)
      else
        ((line ++ '\n' ::
            (truncLines mT mL (next :: rest)
              (totalLen + min line.length mL + 1)).1),
          (truncLines mT mL (next :: rest)
            (totalLen + min line.length mL + 1)).2) := rfl

/-- If the whole remaining text fits in the budget and every line is within
the per-line limit, the loop reproduces the joined input and reports no
truncation. -/
theorem truncLines_of_fits (mT mL : Nat) :
    ∀ (lines : List (List Char)) (totalLen : Nat),
      totalLen + (joinNL lines).length ≤ mT →
      (∀ l ∈ lines, l.length ≤ mL) →
      truncLines mT mL lines totalLen = (joinNL lines, false) := by
  intro lines
  induction lines with
  | nil => intro totalLen _ _; rfl
  | cons line rest ih =>
    intro totalLen hfit hlines
    have hl : line.length ≤ mL := hlines line (by simp)
    have hmin : min line.length mL = line.length := by omega
    cases rest with
    | nil =>
      have hfit1 : totalLen + line.length ≤ mT := by simpa [joinNL] using hfit
      rw [truncLines_single, if_neg (by omega), if_neg (by omega)]
      simp [joinNL]
    | cons next rest2 =>
      have hjoin : joinNL (line :: next :: rest2) =
          line ++ '\n' :: joinNL (next :: rest2) := rfl
      rw [hjoin, List.length_append, List.length_cons] at hfit
      rw [truncLines_cons₂, if_neg (by omega), if_neg (by omega), hmin,
        ih (totalLen + line.length + 1) (by omega)
          (fun l hl2 => hlines l (by simp [hl2]))]
      rw [hjoin]

/-- Length invariant of the loop: the emitted text is (weighted by the line
limit) bounded by the remaining budget, the one-byte overshoot a counted
newline may cause included. -/
theorem truncLines_length_bound (mT mL : Nat) (hmL : 1 ≤ mL) :
    ∀ (lines : List (List Char)) (totalLen : Nat),
      mL * (truncLines mT mL lines totalLen).1.length ≤
        (mL + 1) * (mT + 1 - totalLen) := by
  intro lines
  induction lines with
  | nil => intro totalLen; simp [truncLines]
  | cons line rest ih =>
    intro totalLen
    cases rest with
    | nil =>
      rw [truncLines_single]
      by_cases h1 : mT < totalLen + min line.length mL
      · rw [if_pos h1]
        simp only [List.length_take]
        calc mL * min (mT - totalLen) line.length
            ≤ mL * (mT + 1 - totalLen) := Nat.mul_le_mul_left mL (by omega)
          _ ≤ (mL + 1) * (mT + 1 - totalLen) :=
              Nat.mul_le_mul_right _ (by omega)
      · rw [if_neg h1]
        by_cases h2 : mL < line.length
        · rw [if_pos h2]
          simp only [List.length_take]
          calc mL * min mL line.length
              ≤ mL * (mT + 1 - totalLen) := Nat.mul_le_mul_left mL (by omega)
            _ ≤ (mL + 1) * (mT + 1 - totalLen) :=
                Nat.mul_le_mul_right _ (by omega)
        · rw [if_neg h2]
          calc mL * line.length
              ≤ mL * (mT + 1 - totalLen) := Nat.mul_le_mul_left mL (by omega)
            _ ≤ (mL + 1) * (mT + 1 - totalLen) :=
                Nat.mul_le_mul_right _ (by omega)
    | cons next rest2 =>
      rw [truncLines_cons₂]
      by_cases h1 : mT < totalLen + min line.length mL
      · rw [if_pos h1]
        simp only [List.length_take]
        calc mL * min (mT - totalLen) line.length
            ≤ mL * (mT + 1 - totalLen) := Nat.mul_le_mul_left mL (by omega)
          _ ≤ (mL + 1) * (mT + 1 - totalLen) :=
              Nat.mul_le_mul_right _ (by omega)
      · rw [if_neg h1]
        by_cases h2 : mL < line.length
        · rw [if_pos h2]
          have hmin : min line.length mL = mL := by omega
          have htot : totalLen + mL ≤ mT := by omega
          rw [hmin]
          simp only [List.length_append, List.length_cons, List.length_take]
          have hmin2 : min mL line.length = mL := by omega
          rw [hmin2]
          have IH := ih (totalLen + mL)
          have hsplit : mT + 1 - totalLen = (mT + 1 - (totalLen + mL)) + mL :=
            by omega
          calc mL * (mL +
                ((truncLines mT mL (next :: rest2) (totalLen + mL)).1.length
                  + 1))
              = mL * (truncLines mT mL (next :: rest2)
                  (totalLen + mL)).1.length + (mL * mL + mL) := by ring
            _ ≤ (mL + 1) * (mT + 1 - (totalLen + mL)) + (mL * mL + mL) :=
                Nat.add_le_add_right IH _
            _ = (mL + 1) * ((mT + 1 - (totalLen + mL)) + mL) := by ring
            _ = (mL + 1) * (mT + 1 - totalLen) := by rw [← hsplit]
        · rw [if_neg h2]
          have hmin : min line.length mL = line.length := by omega
          have htot : totalLen + line.length ≤ mT := by omega
          rw [hmin]
          simp only [List.length_append, List.length_cons]
          have IH := ih (totalLen + line.length + 1)
          have hsplit : mT + 1 - totalLen =
              (mT + 1 - (totalLen + line.length + 1)) + line.length + 1 :=
            by omega
          calc mL * (line.length +
                ((truncLines mT mL (next :: rest2)
                  (totalLen + line.length + 1)).1.length + 1))
              = mL * (truncLines mT mL (next :: rest2)
                  (totalLen + line.length + 1)).1.length
                + mL * line.length + mL := by ring
            _ ≤ (mL + 1) * (mT + 1 - (totalLen + line.length + 1))
                + (mL + 1) * line.length + (mL + 1) :=
                Nat.add_le_add
                  (Nat.add_le_add IH
                    (Nat.mul_le_mul_right line.length (by omega)))
                  (by omega)
            _ = (mL + 1) * ((mT + 1 - (totalLen + line.length + 1))
                + line.length + 1) := by ring
            _ = (mL + 1) * (mT + 1 - totalLen) := by rw [← hsplit]

/-- Every line of the text the loop emits is within the per-line limit,
provided the input lines are newline-free (as `splitLines` guarantees). -/
theorem truncLines_line_bound (mT mL : Nat) :
    ∀ (lines : List (List Char)) (totalLen : Nat),
      (∀ l ∈ lines, '\n' ∉ l) →
      ∀ l ∈ splitLines (truncLines mT mL lines totalLen).1, l.length ≤ mL := by
  intro lines
  induction lines with
  | nil =>
    intro totalLen _ l hl
    simp only [truncLines, splitLines] at hl
    rcases List.mem_singleton.mp hl with rfl
    simp
  | cons line rest ih =>
    intro totalLen hnl
    have hline : '\n' ∉ line := hnl line (by simp)
    have htake : ∀ n : Nat, '\n' ∉ line.take n :=
      fun n hm => hline (List.take_subset n line hm)
    cases rest with
    | nil =>
      rw [truncLines_single]
      by_cases h1 : mT < totalLen + min line.length mL
      · rw [if_pos h1]
        intro l hl
        rw [splitLines_of_not_newline _ (htake (mT - totalLen))] at hl
        rcases List.mem_singleton.mp hl with rfl
        simp only [List.length_take]
        omega
      · rw [if_neg h1]
        by_cases h2 : mL < line.length
        · rw [if_pos h2]
          intro l hl
          rw [splitLines_of_not_newline _ (htake mL)] at hl
          rcases List.mem_singleton.mp hl with rfl
          simp only [List.length_take]
          omega
        · rw [if_neg h2]
          intro l hl
          rw [splitLines_of_not_newline _ hline] at hl
          rcases List.mem_singleton.mp hl with rfl
          omega
    | cons next rest2 =>
      have hrest : ∀ l ∈ next :: rest2, '\n' ∉ l :=
        fun l h => hnl l (by simp [h])
      rw [truncLines_cons₂]
      by_cases h1 : mT < totalLen + min line.length mL
      · rw [if_pos h1]
        intro l hl
        rw [splitLines_of_not_newline _ (htake (mT - totalLen))] at hl
        rcases List.mem_singleton.mp hl with rfl
        simp only [List.length_take]
        omega
      · rw [if_neg h1]
        by_cases h2 : mL < line.length
        · rw [if_pos h2]
          intro l hl
          rw [splitLines_append_newline _ _ (htake mL)] at hl
          rcases List.mem_cons.mp hl with rfl | hl
          · simp only [List.length_take]
            omega
          · exact ih (totalLen + min line.length mL) hrest l hl
        · rw [if_neg h2]
          intro l hl
          rw [splitLines_append_newline _ _ hline] at hl
          rcases List.mem_cons.mp hl with rfl | hl
          · omega
          · exact ih (totalLen + min line.length mL + 1) hrest l hl

/-- If the loop reports no truncation, it emitted exactly the joined input. -/
theorem truncLines_untruncated (mT mL : Nat) :
    ∀ (lines : List (List Char)) (totalLen : Nat),
      (truncLines mT mL lines totalLen).2 = false →
      (truncLines mT mL lines totalLen).1 = joinNL lines := by
  intro lines
  induction lines with
  | nil => intro totalLen _; rfl
  | cons line rest ih =>
    intro totalLen hf
    cases rest with
    | nil =>
      rw [truncLines_single] at hf ⊢
      by_cases h1 : mT < totalLen + min line.length mL
      · rw [if_pos h1] at hf; simp at hf
      · rw [if_neg h1] at hf ⊢
        by_cases h2 : mL < line.length
        · rw [if_pos h2] at hf; simp at hf
        · rw [if_neg h2]
          rfl
    | cons next rest2 =>
      rw [truncLines_cons₂] at hf ⊢
      by_cases h1 : mT < totalLen + min line.length mL
      · rw [if_pos h1] at hf; simp at hf
      · rw [if_neg h1] at hf ⊢
        by_cases h2 : mL < line.length
        · rw [if_pos h2] at hf; simp at hf
        · rw [if_neg h2] at hf ⊢
          rw [ih (totalLen + min line.length mL + 1) hf]
          rfl

/-- C6 counterexample: on `"abcde\nx"` with `total = 5`, the first line plus
its counted-after-the-check newline already fill 6 > 5 characters, so the
output `"abcde\n" ++ trailer` has 29 characters — more than
`total + len(trailer) = 28`. -/
theorem truncateText_total_bound_fails :
    ¬ ((truncateText ("abcde\nx".toList) 5 2000).length ≤
        5 + truncTrailer.length) := by decide

/-- C6 (amended): `truncateText t total line` returns `t` unchanged when
`|t| ≤ total` and every line is within `line`; empty input gives empty
output; and otherwise (`line ≥ 1`) every output line before the appended
trailer is within `line`, the output ends with the trailer
`"\n... (output truncated)"`, and the output length is at most
`(total + 1) + (total + 1)/line + len(trailer)` — the total-limit check
excludes the newline that is then counted (one possible overshoot byte), and
each line cut at the line limit appends a newline that is never counted. -/
theorem truncateText_spec_amended (t : List Char) (total line : Nat) :
    (t.length ≤ total → (∀ l ∈ splitLines t, l.length ≤ line) →
      truncateText t total line = t) ∧
    truncateText [] total line = [] ∧
    (1 ≤ line →
      truncateText t total line = t ∨
      ∃ body, truncateText t total line = body ++ truncTrailer ∧
        (∀ l ∈ splitLines body, l.length ≤ line) ∧
        (truncateText t total line).length ≤
          (total + 1) + (total + 1) / line + truncTrailer.length) := by
  refine ⟨?_, ?_, ?_⟩
  · intro hlen hlines
    by_cases hline0 : line = 0
    · unfold truncateText
      rw [if_pos ⟨hlen, hline0⟩]
    · have hfits := truncLines_of_fits total line (splitLines t) 0
        (by rw [joinNL_splitLines]; omega) hlines
      rw [joinNL_splitLines] at hfits
      unfold truncateText
      rw [if_neg (fun h => hline0 h.2)]
      simp [hfits]
  · by_cases hline0 : line = 0
    · unfold truncateText
      rw [if_pos ⟨Nat.zero_le total, hline0⟩]
    · unfold truncateText
      rw [if_neg (fun h => hline0 h.2)]
      rw [show splitLines ([] : List Char) = [[]] from rfl, truncLines_single]
      simp
  · intro hline
    have hguard : ¬ (t.length ≤ total ∧ line = 0) := fun h => by omega
    have hchar : truncateText t total line =
        (if (truncLines total line (splitLines t) 0).2 then
          (truncLines total line (splitLines t) 0).1 ++ truncTrailer
        else (truncLines total line (splitLines t) 0).1) := by
      unfold truncateText
      rw [if_neg hguard]
    cases hflag : (truncLines total line (splitLines t) 0).2 with
    | false =>
      left
      rw [hchar, hflag]
      simp only [Bool.false_eq_true, if_false]
      have hu := truncLines_untruncated total line (splitLines t) 0 hflag
      rw [hu, joinNL_splitLines]
    | true =>
      right
      refine ⟨(truncLines total line (splitLines t) 0).1, ?_, ?_, ?_⟩
      · rw [hchar, hflag]
        simp
      · exact truncLines_line_bound total line (splitLines t) 0
          (not_newline_mem_splitLines t)
      · rw [hchar, hflag]
        simp only [if_true, List.length_append]
        have hB := truncLines_length_bound total line hline (splitLines t) 0
        simp only [Nat.sub_zero] at hB
        have hLle : (truncLines total line (splitLines t) 0).1.length ≤
            (total + 1) + (total + 1) / line := by
          rcases le_or_lt ((truncLines total line (splitLines t) 0).1.length)
            (total + 1) with h | h
          · exact le_trans h (Nat.le_add_right _ _)
          · have hmul : (truncLines total line (splitLines t) 0).1.length *
                line ≤ (total + 1) + (total + 1) * line := by
              calc (truncLines total line (splitLines t) 0).1.length * line
                  = line * (truncLines total line (splitLines t) 0).1.length :=
                    Nat.mul_comm _ _
                _ ≤ (line + 1) * (total + 1) := hB
                _ = (total + 1) + (total + 1) * line := by ring
            have hsub : ((truncLines total line (splitLines t) 0).1.length -
                (total + 1)) * line ≤ total + 1 := by
              rw [Nat.sub_mul]
              exact Nat.sub_le_iff_le_add.mpr (by omega)
            have hdiv := (Nat.le_div_iff_mul_le (by omega)).mpr hsub
            omega
        exact Nat.add_le_add_right hLle _

/-- Witness for `truncateText_spec_amended` at `t = "hi"`, `total = 100`,
`line = 50`: the text is returned unchanged and the truncated-case
disjunction holds. -/
theorem truncateText_spec_amended_witness :
    truncateText ("hi".toList) 100 50 = "hi".toList ∧
    truncateText [] 100 50 = [] ∧
    (truncateText ("hi".toList) 100 50 = "hi".toList ∨
      ∃ body, truncateText ("hi".toList) 100 50 = body ++ truncTrailer ∧
        (∀ l ∈ splitLines body, l.length ≤ 50) ∧
        (truncateText ("hi".toList) 100 50).length ≤
          (100 + 1) + (100 + 1) / 50 + truncTrailer.length) := by
  have h := truncateText_spec_amended ("hi".toList) 100 50
  exact ⟨h.1 (by decide) (by decide), h.2.1, h.2.2 (by decide)⟩

end KimiGo
